import Mathlib

/-!
Verification of the basic-graph-lib repository: an in-memory directed graph
container (`src/lib.rs`) with a TGF text codec written with nom combinators
(`src/serde.rs`).

Shallow embedding conventions:
* `GraphId` (Rust `u64`) is modelled as `Nat`; the `u64` range only matters at
  parse time, where the embedded `cc::u64` combinator enforces the `2 ^ 64`
  bound exactly as nom does on overflow.
* `HashMap<GraphId, T>` is modelled as an association list and
  `HashSet<Edge>` as a duplicate-free-by-construction list; iteration order of
  the hash containers is nondeterministic in Rust, so every claim about
  serialization or neighbour lists is stated up to set membership.
* The nom parsers act on `List Char` and return `PResult`, whose `err`/`fail`
  constructors mirror nom's recoverable `Err::Error` versus unrecoverable
  `Err::Failure`, each carrying the input fragment the error points at.
* Loops (the `separated_list0` loop and the BFS `while` loop) are embedded
  with an explicit structural fuel so that every definition evaluates by
  kernel reduction; the fuel bounds are proved sufficient, which is exactly
  the termination argument of the original loops.
* The Rust fields `Edge.from` and `Edge.to` are called `Edge.from_` and
  `Edge.to_` here because `from` and `to` are Lean keywords.
-/

abbrev GraphId := Nat

/-- Embedding of `struct Edge { from: GraphId, to: GraphId }` (src/lib.rs). -/
structure Edge where
  from_ : GraphId
  to_ : GraphId
deriving DecidableEq, Repr

/-- Embedding of `struct Graph<T> { nodes: HashMap<GraphId, T>, edges: HashSet<Edge> }`. -/
structure Graph (T : Type) where
  nodes : List (GraphId × T)
  edges : List Edge
deriving DecidableEq, Repr

/-- Embedding of `struct GraphNode<T>`: the read-only view returned by `get_node`. -/
structure GraphNode (T : Type) where
  id : GraphId
  value : T
  neighbours : List GraphId
deriving DecidableEq, Repr

/-- Embedding of `HashMap::get` on the association list: first binding of the key wins. -/
def lookupId {T : Type} (id : GraphId) : List (GraphId × T) → Option T
  | [] => none
  | p :: ps => if p.1 = id then some p.2 else lookupId id ps

/-- Embedding of `HashMap::contains_key`. -/
def containsId {T : Type} (id : GraphId) (ns : List (GraphId × T)) : Bool :=
  (lookupId id ns).isSome

namespace Graph

variable {T : Type}

/-- Embedding of `Graph::new`. -/
def new : Graph T := ⟨[], []⟩

/-- Embedding of `Graph::add_node`: `self.nodes.entry(id).or_insert(value)` inserts only
when the key is absent. -/
def add_node (g : Graph T) (id : GraphId) (value : T) : Graph T :=
  if containsId id g.nodes then g else ⟨(id, value) :: g.nodes, g.edges⟩

/-- Embedding of `Graph::get_node`: looks the id up and computes the outgoing-neighbour
list by scanning the edge set for matching `from`. -/
def get_node (g : Graph T) (id : GraphId) : Option (GraphNode T) :=
  (lookupId id g.nodes).map fun value =>
    ⟨id, value, g.edges.filterMap fun e => if e.from_ = id then some e.to_ else none⟩

/-- Embedding of `Graph::delete_node`: retain only edges not incident to `id` (either
direction), then remove the node. -/
def delete_node (g : Graph T) (id : GraphId) : Graph T :=
  ⟨g.nodes.filter fun p => !decide (p.1 = id),
   g.edges.filter fun e => !decide (e.from_ = id) && !decide (e.to_ = id)⟩

/-- Embedding of `Graph::add_edge`: insert only when both endpoints exist; `HashSet::insert`
is a no-op on a present element. -/
def add_edge (g : Graph T) (fro toV : GraphId) : Graph T :=
  if containsId fro g.nodes && containsId toV g.nodes then
    if Edge.mk fro toV ∈ g.edges then g else ⟨g.nodes, Edge.mk fro toV :: g.edges⟩
  else g

/-- Embedding of `Graph::delete_edge`: retain the edges that differ from the given pair in
the `from` or the `to` field. -/
def delete_edge (g : Graph T) (fro toV : GraphId) : Graph T :=
  ⟨g.nodes, g.edges.filter fun e => !decide (e.from_ = fro) || !decide (e.to_ = toV)⟩

/-- The bulk constructor `impl From<([(GraphId, T); N], [(GraphId, GraphId); M])>`
and the graph-building tail of `FromStr::from_str`: replay `add_node` over the
node pairs, then `add_edge` over the edge pairs. -/
def fromLists (ns : List (GraphId × T)) (es : List (GraphId × GraphId)) : Graph T :=
  es.foldl (fun g p => g.add_edge p.1 p.2)
    (ns.foldl (fun g p => g.add_node p.1 p.2) Graph.new)

end Graph

/-- The keys of the node map. -/
def nodeIds {T : Type} (g : Graph T) : List GraphId := g.nodes.map Prod.fst

/-- The documented structural invariant: every edge endpoint is a present node. -/
def Graph.WF {T : Type} (g : Graph T) : Prop :=
  ∀ e ∈ g.edges, containsId e.from_ g.nodes = true ∧ containsId e.to_ g.nodes = true

instance {T : Type} (g : Graph T) : Decidable g.WF :=
  List.decidableBAll _ g.edges

/-- One step along a stored directed edge. -/
def edgeStep {T : Type} (g : Graph T) (a b : GraphId) : Prop := Edge.mk a b ∈ g.edges

/-- Reachability along stored edges (reflexive-transitive closure). -/
def Reachable {T : Type} (g : Graph T) (s t : GraphId) : Prop :=
  Relation.ReflTransGen (edgeStep g) s t

/-! ## The BFS loop (src/lib.rs, `Graph::bfs`)

The Rust loop pops the queue front, skips visited ids, marks the popped id
visited, resolves it with `get_node`, logs one diagnostic line on resolution
failure (`eprintln`), and otherwise prints the node and enqueues its
neighbours.  The embedding returns the list of printed observations together
with the number of diagnostics.  The `while` loop is driven by a structural
fuel; `bfsFuel` is proved large enough below (`bfsAux_fuel_congr` and the C5
theorem), which is the termination argument for the loop. -/

def bfsAux {T : Type} (g : Graph T) :
    Nat → List GraphId → List GraphId → List (GraphNode T) → Nat →
    List (GraphNode T) × Nat
  | 0, _, _, obs, diag => (obs.reverse, diag)
  | fuel + 1, visited, queue, obs, diag =>
    match queue with
    | [] => (obs.reverse, diag)
    | id :: rest =>
      if id ∈ visited then
        bfsAux g fuel visited rest obs diag
      else
        match g.get_node id with
        | none => bfsAux g fuel (id :: visited) rest obs (diag + 1)
        | some node => bfsAux g fuel (id :: visited) (rest ++ node.neighbours) (node :: obs) diag

/-- Fuel sufficient for the whole traversal (proved below). -/
def bfsFuel {T : Type} (g : Graph T) : Nat := g.nodes.length * (1 + g.edges.length) + 2

/-- Embedding of `Graph::bfs`: visited set and queue start empty and `[source]`. -/
def Graph.bfs {T : Type} (g : Graph T) (source : GraphId) : List (GraphNode T) × Nat :=
  bfsAux g (bfsFuel g) [] [source] [] 0

/-- Loop variant of the BFS `while` loop: every iteration strictly decreases
it, so `bfsFuel` iterations always reach the empty queue. -/
def bfsPhi {T : Type} (g : Graph T) (visited queue : List GraphId) : Nat :=
  ((nodeIds g).filter fun x => !decide (x ∈ visited)).length * (1 + g.edges.length) +
    queue.length

/-! ## Decimal digits

`Display for u64` renders the decimal representation; `natToDigits` is the
executable renderer (fuelled so the kernel can evaluate it) and
`natToDigitsSpec` its recursive specification used in proofs. -/

def digitChar : Nat → Char
  | 0 => '0' | 1 => '1' | 2 => '2' | 3 => '3' | 4 => '4'
  | 5 => '5' | 6 => '6' | 7 => '7' | 8 => '8' | _ => '9'

def digitVal (c : Char) : Nat := c.toNat - 48

def isDigitChar (c : Char) : Bool := decide (48 ≤ c.toNat) && decide (c.toNat ≤ 57)

def foldDigits (ds : List Char) : Nat := ds.foldl (fun a c => a * 10 + digitVal c) 0

def natToDigitsAux : Nat → Nat → List Char → List Char
  | 0, _, acc => acc
  | fuel + 1, n, acc =>
    if n < 10 then digitChar n :: acc
    else natToDigitsAux fuel (n / 10) (digitChar (n % 10) :: acc)

def natToDigits (n : Nat) : List Char := natToDigitsAux (n + 1) n []

def natToDigitsSpec (n : Nat) : List Char :=
  if n < 10 then [digitChar n] else natToDigitsSpec (n / 10) ++ [digitChar (n % 10)]
termination_by n
decreasing_by exact Nat.div_lt_self (by omega) (by omega)

/-! ## The nom combinators used by src/serde.rs

`PResult.err` is nom's recoverable `Err::Error`, `PResult.fail` the
unrecoverable `Err::Failure`; both carry the input slice the nom error
points at. -/

inductive PResult (α : Type) where
  | ok (rest : List Char) (val : α)
  | err (loc : List Char)
  | fail (loc : List Char)
deriving DecidableEq, Repr

abbrev Parser (α : Type) := List Char → PResult α

/-- Embedding of `character::complete::line_ending`: matches `"\n"` or `"\r\n"`. -/
def lineEndingP : Parser Unit := fun s =>
  match s with
  | '\n' :: r => .ok r ()
  | '\r' :: '\n' :: r => .ok r ()
  | _ => .err s

/-- Embedding of `character::complete::char(c)`. -/
def charP (c : Char) : Parser Unit := fun s =>
  match s with
  | a :: r => if a = c then .ok r () else .err s
  | [] => .err s

def isSpaceTab (c : Char) : Bool := decide (c = ' ') || decide (c = '\t')

/-- Embedding of `character::complete::space1`: one or more spaces/tabs. -/
def space1P : Parser Unit := fun s =>
  if (s.takeWhile isSpaceTab).isEmpty then .err s
  else .ok (s.dropWhile isSpaceTab) ()

/-- Embedding of `character::complete::u64` (complete): a nonempty run of ASCII digits whose
value fits in `u64`; overflow is a recoverable error, as in nom. -/
def u64P : Parser Nat := fun s =>
  let ds := s.takeWhile isDigitChar
  if ds.isEmpty then .err s
  else if foldDigits ds < 2 ^ 64 then .ok (s.dropWhile isDigitChar) (foldDigits ds)
  else .err s

/-- Embedding of `character::complete::not_line_ending` (complete): everything up to the
first `'\r'` or `'\n'` (kept in the remainder); a `'\r'` not followed by
`'\n'` is an error at the original input. -/
def notLineEndingP : Parser (List Char) := fun s =>
  let t := s.takeWhile fun c => !decide (c = '\r') && !decide (c = '\n')
  match s.dropWhile (fun c => !decide (c = '\r') && !decide (c = '\n')) with
  | '\r' :: '\n' :: r => .ok ('\r' :: '\n' :: r) t
  | '\r' :: _ => .err s
  | r => .ok r t

/-- Embedding of `parse_value` (src/serde.rs): run `T::from_str` on the whole fragment;
rejection is `nom::Err::Failure` carrying the fragment. -/
def parse_value {α : Type} (pv : List Char → Option α) : Parser α := fun s =>
  match pv s with
  | some v => .ok [] v
  | none => .fail s

/-- Embedding of `combinator::map_parser`: run the outer parser, then the inner one on the
matched slice, keeping the outer remainder. -/
def mapParser {α : Type} (p : Parser (List Char)) (q : Parser α) : Parser α := fun s =>
  match p s with
  | .ok r t =>
    match q t with
    | .ok _ v => .ok r v
    | .err l => .err l
    | .fail l => .fail l
  | .err l => .err l
  | .fail l => .fail l

/-- Embedding of `sequence::separated_pair`. -/
def separatedPair {α β γ : Type} (p : Parser α) (sep : Parser γ) (q : Parser β) :
    Parser (α × β) := fun s =>
  match p s with
  | .ok s1 a =>
    match sep s1 with
    | .ok s2 _ =>
      match q s2 with
      | .ok s3 b => .ok s3 (a, b)
      | .err l => .err l
      | .fail l => .fail l
    | .err l => .err l
    | .fail l => .fail l
  | .err l => .err l
  | .fail l => .fail l

/-- Embedding of `sequence::delimited`. -/
def delimited {α β γ : Type} (p : Parser α) (q : Parser β) (r : Parser γ) :
    Parser β := fun s =>
  match p s with
  | .ok s1 _ =>
    match q s1 with
    | .ok s2 b =>
      match r s2 with
      | .ok s3 _ => .ok s3 b
      | .err l => .err l
      | .fail l => .fail l
    | .err l => .err l
    | .fail l => .fail l
  | .err l => .err l
  | .fail l => .fail l

/-- The loop of `multi::separated_list0`: stop (without consuming the
separator) when the separator or the element fails recoverably, propagate
failures, and error out if the separator consumed nothing (nom's
`ErrorKind::SeparatedList` guard, which is also what bounds the fuel: each
iteration consumes at least one character). -/
def sepListLoop {α γ : Type} (sep : Parser γ) (elem : Parser α) :
    Nat → List α → List Char → PResult (List α)
  | 0, _, input => .err input
  | fuel + 1, acc, input =>
    match sep input with
    | .err _ => .ok input acc.reverse
    | .fail l => .fail l
    | .ok i1 _ =>
      if i1.length = input.length then .err i1
      else
        match elem i1 with
        | .err _ => .ok input acc.reverse
        | .fail l => .fail l
        | .ok i2 o => sepListLoop sep elem fuel (o :: acc) i2

/-- Embedding of `multi::separated_list0`. -/
def separatedList0 {α γ : Type} (sep : Parser γ) (elem : Parser α) :
    Parser (List α) := fun input =>
  match elem input with
  | .err _ => .ok input []
  | .fail l => .fail l
  | .ok i1 o => sepListLoop sep elem (i1.length + 1) [o] i1

/-- One `<id><space1><value>` line element of `parse_pairs`. -/
def pairElem {α : Type} (pv : List Char → Option α) : Parser (GraphId × α) :=
  separatedPair u64P space1P (mapParser notLineEndingP (parse_value pv))

/-- Embedding of `parse_pairs` (src/serde.rs). -/
def parse_pairs {α : Type} (pv : List Char → Option α) : Parser (List (GraphId × α)) :=
  separatedList0 lineEndingP (pairElem pv)

/-- Embedding of `u64::from_str`, used by the edge section's `parse_value::<GraphId>`:
an optional leading `'+'`, then a nonempty all-digit string fitting in `u64`. -/
def u64FromStr (s : List Char) : Option Nat :=
  let ds := match s with
    | '+' :: r => r
    | r => r
  if !ds.isEmpty && ds.all isDigitChar && decide (foldDigits ds < 2 ^ 64) then
    some (foldDigits ds)
  else none

/-- Embedding of `impl FromStr for Graph<T>` (src/serde.rs): node pairs, then the
`line_ending '#' line_ending` delimiter, then edge pairs; any leftover input
is dropped (`map(|(_, (nodes, edges))| ...)`), and both nom error levels are
surfaced as one parse error (`Finish` + `anyhow`), here carrying the nom
error's input fragment. -/
def from_str {T : Type} (pv : List Char → Option T) (s : List Char) :
    Except (List Char) (Graph T) :=
  match separatedPair (parse_pairs pv)
      (delimited lineEndingP (charP '#') lineEndingP)
      (parse_pairs u64FromStr) s with
  | .ok _ (ns, es) => .ok (Graph.fromLists ns es)
  | .err l => .error l
  | .fail l => .error l

/-- Embedding of `Graph::serialize`: one id-space-value line per node, each
ending in a newline, then the delimiter line, then one from-space-to line per
edge (hash iteration order is modelled by the list order). -/
def renderPairs {α : Type} (disp : α → List Char) : List (GraphId × α) → List Char
  | [] => []
  | p :: ps => natToDigits p.1 ++ ' ' :: (disp p.2 ++ '\n' :: renderPairs disp ps)

def Graph.serialize {T : Type} (disp : T → List Char) (g : Graph T) : List Char :=
  renderPairs disp g.nodes ++
    '#' :: '\n' :: renderPairs natToDigits (g.edges.map fun e => (e.from_, e.to_))

/-! ## Concrete value codec instances and side conditions -/

/-- Embedding of `String::from_str`: it never fails. -/
def strPv (s : List Char) : Option (List Char) := some s

/-- Embedding of `Display for String`: it renders the string itself. -/
def strDisp (s : List Char) : List Char := s

def chars (s : String) : List Char := s.data

/-- A fragment that contains no line break, hence survives `not_line_ending`. -/
def lineSafe (s : List Char) : Bool := s.all fun c => !decide (c = '\r') && !decide (c = '\n')

/-- A fragment not starting with a space or tab, hence not eaten by `space1`. -/
def noLeadSpace : List Char → Bool
  | [] => true
  | c :: _ => !isSpaceTab c

/-- A fragment not starting with an ASCII digit, hence rejected by `u64`. -/
def headNonDigit : List Char → Bool
  | [] => true
  | c :: _ => !isDigitChar c

/-- The conditions under which one `(id, value)` pair renders to a node line
that `parse_pairs` maps back to the same pair. -/
def GoodPair {α : Type} (pv : List Char → Option α) (disp : α → List Char)
    (p : GraphId × α) : Prop :=
  p.1 < 2 ^ 64 ∧ lineSafe (disp p.2) = true ∧ noLeadSpace (disp p.2) = true ∧
    pv (disp p.2) = some p.2

instance {α : Type} [DecidableEq α] (pv : List Char → Option α) (disp : α → List Char)
    (p : GraphId × α) : Decidable (GoodPair pv disp p) := by
  rw [GoodPair]
  infer_instance

/-! ## Basic lookup and filter lemmas -/

theorem lookupId_eq_none {T : Type} (id : GraphId) (ns : List (GraphId × T)) :
    lookupId id ns = none ↔ id ∉ ns.map Prod.fst := by
  induction ns with
  | nil => simp [lookupId]
  | cons p ps ih =>
    by_cases h : p.1 = id
    · subst h
      simp [lookupId]
    · have h' : ¬ id = p.1 := fun hc => h hc.symm
      simp [lookupId, h, h', ih]

theorem containsId_iff_mem {T : Type} (id : GraphId) (ns : List (GraphId × T)) :
    containsId id ns = true ↔ id ∈ ns.map Prod.fst := by
  rw [containsId, Option.isSome_iff_ne_none, ne_eq, lookupId_eq_none, not_not]

theorem containsId_false_iff {T : Type} (id : GraphId) (ns : List (GraphId × T)) :
    containsId id ns = false ↔ id ∉ ns.map Prod.fst := by
  rw [← Bool.not_eq_true, containsId_iff_mem]

theorem lookupId_filter_ne {T : Type} (id j : GraphId) (ns : List (GraphId × T))
    (h : j ≠ id) :
    lookupId j (ns.filter fun p => !decide (p.1 = id)) = lookupId j ns := by
  induction ns with
  | nil => simp
  | cons p ps ih =>
    rw [List.filter_cons]
    by_cases hp : p.1 = id
    · rw [if_neg (by simp [hp]), ih]
      simp only [lookupId]
      rw [if_neg fun hc => h ((hp.symm.trans hc).symm)]
    · rw [if_pos (by simp [hp])]
      simp only [lookupId]
      by_cases hpj : p.1 = j
      · rw [if_pos hpj, if_pos hpj]
      · rw [if_neg hpj, if_neg hpj, ih]

theorem lookupId_filter_self {T : Type} (id : GraphId) (ns : List (GraphId × T)) :
    lookupId id (ns.filter fun p => !decide (p.1 = id)) = none := by
  induction ns with
  | nil => simp [lookupId]
  | cons p ps ih =>
    rw [List.filter_cons]
    by_cases hp : p.1 = id
    · rw [if_neg (by simp [hp])]
      exact ih
    · rw [if_pos (by simp [hp])]
      simp only [lookupId]
      rw [if_neg hp]
      exact ih

theorem length_filter_partition {α : Type} (p : α → Bool) (l : List α) :
    l.length = (l.filter fun x => !p x).length + (l.filter p).length := by
  induction l with
  | nil => simp
  | cons a l ih =>
    by_cases h : p a <;> simp [List.filter_cons, h, ih] <;> omega

/-! ## Preservation of the edge invariant (claim C2 support) -/

theorem foldl_preserve {α β : Type} (P : α → Prop) (f : α → β → α)
    (h : ∀ a b, P a → P (f a b)) :
    ∀ (l : List β) (a : α), P a → P (l.foldl f a) := by
  intro l
  induction l with
  | nil => intro a ha; exact ha
  | cons b l ih => intro a ha; exact ih (f a b) (h a b ha)

theorem add_node_contains_mono {T : Type} (g : Graph T) (id : GraphId) (v : T)
    (x : GraphId) (h : containsId x g.nodes = true) :
    containsId x (g.add_node id v).nodes = true := by
  rw [Graph.add_node]
  split
  · exact h
  · simp only [containsId, lookupId]
    split
    · rfl
    · exact h

theorem add_node_edges {T : Type} (g : Graph T) (id : GraphId) (v : T) :
    (g.add_node id v).edges = g.edges := by
  rw [Graph.add_node]; split <;> rfl

theorem add_node_WF {T : Type} (g : Graph T) (id : GraphId) (v : T) (h : g.WF) :
    (g.add_node id v).WF := by
  intro e he
  rw [add_node_edges] at he
  obtain ⟨h1, h2⟩ := h e he
  exact ⟨add_node_contains_mono g id v _ h1, add_node_contains_mono g id v _ h2⟩

theorem delete_node_WF {T : Type} (g : Graph T) (id : GraphId) (h : g.WF) :
    (g.delete_node id).WF := by
  intro e he
  rw [Graph.delete_node] at he
  simp only [List.mem_filter, Bool.and_eq_true, Bool.not_eq_true', decide_eq_false_iff_not] at he
  obtain ⟨he, hf, ht⟩ := he
  obtain ⟨h1, h2⟩ := h e he
  constructor
  · rw [Graph.delete_node, containsId, Option.isSome_iff_ne_none, ne_eq,
      lookupId_filter_ne _ _ _ hf, ← ne_eq, ← Option.isSome_iff_ne_none]
    exact h1
  · rw [Graph.delete_node, containsId, Option.isSome_iff_ne_none, ne_eq,
      lookupId_filter_ne _ _ _ ht, ← ne_eq, ← Option.isSome_iff_ne_none]
    exact h2

theorem add_edge_nodes {T : Type} (g : Graph T) (a b : GraphId) :
    (g.add_edge a b).nodes = g.nodes := by
  rw [Graph.add_edge]
  split
  · split <;> rfl
  · rfl

theorem add_edge_WF {T : Type} (g : Graph T) (a b : GraphId) (h : g.WF) :
    (g.add_edge a b).WF := by
  intro e he
  have hn := add_edge_nodes g a b
  rw [Graph.add_edge] at he
  split at he
  · rename_i hc
    rw [Bool.and_eq_true] at hc
    split at he
    · rw [hn]; exact h e he
    · simp only [List.mem_cons] at he
      rcases he with rfl | he
      · rw [hn]; exact ⟨hc.1, hc.2⟩
      · rw [hn]; exact h e he
  · rw [hn]; exact h e he

theorem delete_edge_WF {T : Type} (g : Graph T) (a b : GraphId) (h : g.WF) :
    (g.delete_edge a b).WF := by
  intro e he
  rw [Graph.delete_edge] at he
  exact h e (List.mem_filter.mp he).1

theorem fromLists_WF {T : Type} (ns : List (GraphId × T)) (es : List (GraphId × GraphId)) :
    (Graph.fromLists ns es).WF := by
  rw [Graph.fromLists]
  refine foldl_preserve Graph.WF _ (fun g p hg => add_edge_WF g p.1 p.2 hg) es _ ?_
  refine foldl_preserve Graph.WF _ (fun g p hg => add_node_WF g p.1 p.2 hg) ns _ ?_
  intro e he
  simp [Graph.new] at he

theorem from_str_WF {T : Type} (pv : List Char → Option T) (s : List Char)
    (G : Graph T) (h : from_str pv s = .ok G) : G.WF := by
  rw [from_str] at h
  split at h
  · rename_i ns_es heq
    obtain ⟨hG⟩ := h
    exact fromLists_WF _ _
  · exact absurd h (by simp)
  · exact absurd h (by simp)

/-- Projection lemma for `delete_node`. -/
theorem delete_node_nodes {T : Type} (g : Graph T) (id : GraphId) :
    (g.delete_node id).nodes = g.nodes.filter fun p => !decide (p.1 = id) := rfl

/-- Projection lemma for `delete_node`. -/
theorem delete_node_edges {T : Type} (g : Graph T) (id : GraphId) :
    (g.delete_node id).edges =
      g.edges.filter fun e => !decide (e.from_ = id) && !decide (e.to_ = id) := rfl

/-- Claim C2: the edge-endpoint invariant holds for the empty graph and is
preserved by `add_node`, `delete_node` (cascading edge removal), `add_edge`
(existence-gated insertion), `delete_edge`, bulk construction, and parsing.
`get_node` does not mutate the graph in the embedding (it is pure), so it
preserves every property of the graph trivially. -/
theorem c2_edge_invariant {T : Type} :
    (Graph.new : Graph T).WF ∧
    (∀ g : Graph T, g.WF → ∀ id v, (g.add_node id v).WF) ∧
    (∀ g : Graph T, g.WF → ∀ id, (g.delete_node id).WF) ∧
    (∀ g : Graph T, g.WF → ∀ a b, (g.add_edge a b).WF) ∧
    (∀ g : Graph T, g.WF → ∀ a b, (g.delete_edge a b).WF) ∧
    (∀ (ns : List (GraphId × T)) es, (Graph.fromLists ns es).WF) ∧
    (∀ (pv : List Char → Option T) s G, from_str pv s = .ok G → G.WF) := by
  refine ⟨?_, ?_, ?_, ?_, ?_, ?_, ?_⟩
  · intro e he
    simp [Graph.new] at he
  · exact fun g hg id v => add_node_WF g id v hg
  · exact fun g hg id => delete_node_WF g id hg
  · exact fun g hg a b => add_edge_WF g a b hg
  · exact fun g hg a b => delete_edge_WF g a b hg
  · exact fun ns es => fromLists_WF ns es
  · exact fun pv s G h => from_str_WF pv s G h

/-- Witness for C2 at concrete inputs: the invariant-preservation conjuncts
applied to a concrete well-formed graph. -/
theorem c2_edge_invariant_witness :
    ((Graph.mk [(1, (0 : Nat)), (2, 0)] [Edge.mk 1 2]).add_edge 2 1).WF ∧
    ((Graph.mk [(1, (0 : Nat)), (2, 0)] [Edge.mk 1 2]).delete_node 1).WF :=
  ⟨(c2_edge_invariant.2.2.2.1 _ (by decide) 2 1),
   (c2_edge_invariant.2.2.1 _ (by decide) 1)⟩

/-- Claim C7: deleting a present id removes it from the node map, removes
exactly the edges incident to it (as `from` or as `to`), leaves every other
node binding and every non-incident edge unchanged, and decreases the edge
count by exactly the incident-edge count. -/
theorem c7_delete_node {T : Type} (g : Graph T) (id : GraphId)
    (_hid : id ∈ nodeIds g) :
    containsId id (g.delete_node id).nodes = false ∧
    (∀ j, j ≠ id → lookupId j (g.delete_node id).nodes = lookupId j g.nodes) ∧
    (∀ e, e ∈ (g.delete_node id).edges ↔ e ∈ g.edges ∧ e.from_ ≠ id ∧ e.to_ ≠ id) ∧
    g.edges.length = (g.delete_node id).edges.length +
      (g.edges.filter fun e => decide (e.from_ = id) || decide (e.to_ = id)).length := by
  refine ⟨?_, ?_, ?_, ?_⟩
  · rw [delete_node_nodes, containsId, lookupId_filter_self]
    rfl
  · intro j hj
    rw [delete_node_nodes]
    exact lookupId_filter_ne id j g.nodes hj
  · intro e
    rw [delete_node_edges]
    simp [List.mem_filter, and_assoc]
  · rw [delete_node_edges]
    have hfun : (fun e : Edge => !decide (e.from_ = id) && !decide (e.to_ = id)) =
        fun e : Edge => !(decide (e.from_ = id) || decide (e.to_ = id)) := by
      funext e
      rw [Bool.not_or]
    rw [hfun]
    exact length_filter_partition _ g.edges

/-- Witness for C7 on the test-fixture shape: node 1 with a self-loop and an
outgoing and incoming edge. -/
theorem c7_delete_node_witness :
    1 ∈ nodeIds (Graph.mk [(1, (0 : Nat)), (2, 0)] [Edge.mk 1 1, Edge.mk 1 2, Edge.mk 2 1, Edge.mk 2 2]) ∧
    containsId 1 ((Graph.mk [(1, (0 : Nat)), (2, 0)]
      [Edge.mk 1 1, Edge.mk 1 2, Edge.mk 2 1, Edge.mk 2 2]).delete_node 1).nodes = false :=
  ⟨by decide,
   (c7_delete_node (Graph.mk [(1, (0 : Nat)), (2, 0)]
      [Edge.mk 1 1, Edge.mk 1 2, Edge.mk 2 1, Edge.mk 2 2]) 1 (by decide)).1⟩

/-- Claim C8 counterexample: the claim quantifies over every graph, but on a
graph that already stores value 0 under id 1, `add_node 1 1` then
`add_node 1 2` leaves 0, not the claimed v1 = 1. -/
theorem c8_counterexample :
    lookupId 1 (((Graph.mk [(1, (0 : Nat))] []).add_node 1 1).add_node 1 2).nodes = some 0 ∧
    (0 : Nat) ≠ 1 ∧ (1 : Nat) ≠ 2 := by
  refine ⟨by decide, by decide, by decide⟩

/-- Claim C8 amended: on a graph where `id` is not already present,
`add_node id v1` then `add_node id v2` stores `v1` (first-write-wins). -/
theorem c8_first_write_wins {T : Type} (g : Graph T) (id : GraphId) (v1 v2 : T)
    (hfree : containsId id g.nodes = false) (_hne : v1 ≠ v2) :
    lookupId id ((g.add_node id v1).add_node id v2).nodes = some v1 := by
  have h0 : ¬ containsId id g.nodes = true := by rw [hfree]; simp
  have h1 : g.add_node id v1 = ⟨(id, v1) :: g.nodes, g.edges⟩ := by
    rw [Graph.add_node, if_neg h0]
  rw [h1, Graph.add_node]
  rw [if_pos (by simp [containsId, lookupId])]
  simp [lookupId]

/-- Witness for the amended C8. -/
theorem c8_first_write_wins_witness :
    containsId 1 (Graph.new : Graph Nat).nodes = false ∧ (1 : Nat) ≠ 2 ∧
    lookupId 1 (((Graph.new : Graph Nat).add_node 1 1).add_node 1 2).nodes = some 1 :=
  ⟨by decide, by decide, c8_first_write_wins Graph.new 1 1 2 (by decide) (by decide)⟩

/-- Claim C9: for a well-formed graph and an absent id, `get_node` returns
`none` (absence, not an error) and `delete_node` leaves the graph unchanged. -/
theorem c9_absent_id_noop {T : Type} (g : Graph T) (id : GraphId)
    (hwf : g.WF) (hid : id ∉ nodeIds g) :
    g.get_node id = none ∧ g.delete_node id = g := by
  have hid' : id ∉ g.nodes.map Prod.fst := hid
  have hnone : lookupId id g.nodes = none := (lookupId_eq_none id g.nodes).mpr hid'
  constructor
  · rw [Graph.get_node, hnone]
    rfl
  · have h1 : List.filter (fun p => !decide (p.1 = id)) g.nodes = g.nodes := by
      rw [List.filter_eq_self]
      intro p hp
      simp only [Bool.not_eq_true', decide_eq_false_iff_not]
      exact fun hc => hid' (hc ▸ List.mem_map_of_mem Prod.fst hp)
    have h2 : List.filter (fun e => !decide (e.from_ = id) && !decide (e.to_ = id))
        g.edges = g.edges := by
      rw [List.filter_eq_self]
      intro e he
      obtain ⟨hf, ht⟩ := hwf e he
      rw [containsId_iff_mem] at hf ht
      simp only [Bool.and_eq_true, Bool.not_eq_true', decide_eq_false_iff_not]
      exact ⟨fun hc => hid' (hc ▸ hf), fun hc => hid' (hc ▸ ht)⟩
    rw [Graph.delete_node, h1, h2]

/-- Witness for C9. -/
theorem c9_absent_id_noop_witness :
    (Graph.mk [(1, (0 : Nat))] [Edge.mk 1 1]).get_node 5 = none ∧
    (Graph.mk [(1, (0 : Nat))] [Edge.mk 1 1]).delete_node 5 =
      Graph.mk [(1, (0 : Nat))] [Edge.mk 1 1] :=
  c9_absent_id_noop (Graph.mk [(1, (0 : Nat))] [Edge.mk 1 1]) 5 (by decide) (by decide)

/-! ## BFS support lemmas -/

theorem lookupId_some_mem {T : Type} (id : GraphId) (ns : List (GraphId × T)) (v : T)
    (h : lookupId id ns = some v) : id ∈ ns.map Prod.fst := by
  by_contra hc
  rw [(lookupId_eq_none id ns).mpr hc] at h
  exact Option.noConfusion h

theorem get_node_none_iff {T : Type} (g : Graph T) (id : GraphId) :
    g.get_node id = none ↔ id ∉ nodeIds g := by
  rw [Graph.get_node, Option.map_eq_none']
  exact lookupId_eq_none id g.nodes

theorem get_node_some_elim {T : Type} (g : Graph T) (id : GraphId) (node : GraphNode T)
    (h : g.get_node id = some node) :
    node.id = id ∧ id ∈ nodeIds g ∧
    (∀ x, x ∈ node.neighbours ↔ Edge.mk id x ∈ g.edges) ∧
    node.neighbours.length ≤ g.edges.length := by
  rw [Graph.get_node] at h
  cases hl : lookupId id g.nodes with
  | none => rw [hl] at h; exact Option.noConfusion h
  | some v =>
    rw [hl] at h
    simp only [Option.map_some', Option.some.injEq] at h
    subst h
    refine ⟨rfl, lookupId_some_mem id g.nodes v hl, ?_, List.length_filterMap_le _ _⟩
    intro x
    rw [List.mem_filterMap]
    constructor
    · rintro ⟨e, he, hfe⟩
      by_cases hf : e.from_ = id
      · rw [if_pos hf] at hfe
        obtain ⟨rfl⟩ := hfe
        have : e = Edge.mk id e.to_ := by cases e; cases hf; rfl
        exact this ▸ he
      · rw [if_neg hf] at hfe
        exact Option.noConfusion hfe
    · intro he
      exact ⟨Edge.mk id x, he, by simp⟩

theorem filter_length_mono {α : Type} (p q : α → Bool)
    (hpq : ∀ x, p x = true → q x = true) :
    ∀ l : List α, (l.filter p).length ≤ (l.filter q).length := by
  intro l
  induction l with
  | nil => simp
  | cons a l ih =>
    rw [List.filter_cons, List.filter_cons]
    by_cases hp : p a = true
    · rw [if_pos hp, if_pos (hpq a hp)]
      simp only [List.length_cons]
      omega
    · rw [if_neg hp]
      by_cases hq : q a = true
      · rw [if_pos hq]
        simp only [List.length_cons]
        omega
      · rw [if_neg hq]
        exact ih

theorem filter_length_lt {α : Type} (p q : α → Bool)
    (hpq : ∀ x, p x = true → q x = true) (a : α) (l : List α)
    (ha : a ∈ l) (hqa : q a = true) (hpa : p a = false) :
    (l.filter p).length < (l.filter q).length := by
  induction l with
  | nil => cases ha
  | cons b l ih =>
    rw [List.filter_cons, List.filter_cons]
    rcases List.mem_cons.mp ha with rfl | hmem
    · rw [if_neg (by rw [hpa]; exact Bool.false_ne_true), if_pos hqa]
      simp only [List.length_cons]
      exact Nat.lt_succ_of_le (filter_length_mono p q hpq l)
    · by_cases hp : p b = true
      · rw [if_pos hp, if_pos (hpq b hp)]
        simp only [List.length_cons]
        have := ih hmem
        omega
      · rw [if_neg hp]
        by_cases hq : q b = true
        · rw [if_pos hq]
          simp only [List.length_cons]
          have := ih hmem
          omega
        · rw [if_neg hq]
          exact ih hmem

theorem bfsPhi_cons {T : Type} (g : Graph T) (visited : List GraphId) (id : GraphId)
    (rest : List GraphId) :
    bfsPhi g visited (id :: rest) = bfsPhi g visited rest + 1 := by
  simp only [bfsPhi, List.length_cons]
  omega

theorem bfsPhi_visit_nonnode {T : Type} (g : Graph T) (id : GraphId)
    (visited queue : List GraphId) (hid : id ∉ nodeIds g) :
    bfsPhi g (id :: visited) queue = bfsPhi g visited queue := by
  simp only [bfsPhi]
  have hflt : ((nodeIds g).filter fun x => !decide (x ∈ id :: visited)) =
      (nodeIds g).filter fun x => !decide (x ∈ visited) := by
    apply List.filter_congr
    intro x hx
    have hxid : ¬ x = id := fun hc => hid (hc ▸ hx)
    congr 1
    rw [decide_eq_decide]
    simp [hxid]
  rw [hflt]

theorem bfsPhi_visit_node {T : Type} (g : Graph T) (id : GraphId)
    (visited rest nbrs : List GraphId)
    (hid : id ∈ nodeIds g) (hv : id ∉ visited) (hn : nbrs.length ≤ g.edges.length) :
    bfsPhi g (id :: visited) (rest ++ nbrs) < bfsPhi g visited (id :: rest) := by
  simp only [bfsPhi, List.length_append, List.length_cons]
  have hmono : ∀ x : GraphId,
      (!decide (x ∈ id :: visited)) = true → (!decide (x ∈ visited)) = true := by
    intro x hx
    simp only [Bool.not_eq_true', decide_eq_false_iff_not, List.mem_cons, not_or] at hx ⊢
    exact hx.2
  have hqa : (!decide (id ∈ visited)) = true := by simp [hv]
  have hpa : (!decide (id ∈ id :: visited)) = false := by simp
  have hF := filter_length_lt _ _ hmono id (nodeIds g) hid hqa hpa
  have hmul : ((nodeIds g).filter fun x => !decide (x ∈ id :: visited)).length *
        (1 + g.edges.length) + (1 + g.edges.length) ≤
      ((nodeIds g).filter fun x => !decide (x ∈ visited)).length * (1 + g.edges.length) := by
    have h1 : (((nodeIds g).filter fun x => !decide (x ∈ id :: visited)).length + 1) *
        (1 + g.edges.length) ≤
        ((nodeIds g).filter fun x => !decide (x ∈ visited)).length * (1 + g.edges.length) :=
      Nat.mul_le_mul_right _ hF
    calc ((nodeIds g).filter fun x => !decide (x ∈ id :: visited)).length *
          (1 + g.edges.length) + (1 + g.edges.length)
        = (((nodeIds g).filter fun x => !decide (x ∈ id :: visited)).length + 1) *
          (1 + g.edges.length) := by ring
      _ ≤ _ := h1
  omega

theorem bfsAux_fuel_congr {T : Type} (g : Graph T) :
    ∀ fuel fuel' visited queue obs diag,
      bfsPhi g visited queue < fuel → bfsPhi g visited queue < fuel' →
      bfsAux g fuel visited queue obs diag = bfsAux g fuel' visited queue obs diag := by
  intro fuel
  induction fuel with
  | zero => exact fun fuel' v q o d h _ => absurd h (Nat.not_lt_zero _)
  | succ fuel ih =>
    intro fuel' visited queue obs diag h h'
    cases fuel' with
    | zero => exact absurd h' (Nat.not_lt_zero _)
    | succ fuel' =>
      cases queue with
      | nil => rfl
      | cons id rest =>
        simp only [bfsAux]
        by_cases hv : id ∈ visited
        · rw [if_pos hv, if_pos hv]
          rw [bfsPhi_cons] at h h'
          exact ih fuel' visited rest obs diag (by omega) (by omega)
        · rw [if_neg hv, if_neg hv]
          cases hn : g.get_node id with
          | none =>
            have hnid : id ∉ nodeIds g := (get_node_none_iff g id).mp hn
            rw [bfsPhi_cons] at h h'
            have he := bfsPhi_visit_nonnode g id visited rest hnid
            exact ih fuel' (id :: visited) rest obs (diag + 1) (by omega) (by omega)
          | some node =>
            obtain ⟨hid_eq, hmem, hnbr, hlen⟩ := get_node_some_elim g id node hn
            have hlt := bfsPhi_visit_node g id visited rest node.neighbours hmem hv hlen
            exact ih fuel' (id :: visited) (rest ++ node.neighbours) (node :: obs) diag
              (by omega) (by omega)

/-- Main BFS invariant: with enough fuel, the loop returns the accumulated
diagnostics unchanged and an observation list whose ids extend the
accumulator by exactly the ids reachable through the queue; the resulting id
list is duplicate-free, sound for reachability, closed under outgoing edges,
and contained in the node map. -/
theorem bfsAux_spec {T : Type} (g : Graph T) (s : GraphId) (hwf : g.WF) :
    ∀ fuel visited queue obs diag,
      bfsPhi g visited queue < fuel →
      (∀ q ∈ queue, q ∈ nodeIds g) →
      (∀ q ∈ queue, Reachable g s q) →
      (∀ v ∈ visited, Reachable g s v) →
      (∀ v ∈ visited, v ∈ nodeIds g) →
      (∀ x, x ∈ visited ↔ x ∈ obs.map GraphNode.id) →
      (obs.map GraphNode.id).Nodup →
      (∀ u v, u ∈ visited → Edge.mk u v ∈ g.edges → v ∈ visited ∨ v ∈ queue) →
      ∃ out,
        bfsAux g fuel visited queue obs diag = (out, diag) ∧
        (∀ x ∈ obs.map GraphNode.id, x ∈ out.map GraphNode.id) ∧
        (∀ q ∈ queue, q ∈ out.map GraphNode.id) ∧
        (∀ t ∈ out.map GraphNode.id, Reachable g s t ∧ t ∈ nodeIds g) ∧
        (out.map GraphNode.id).Nodup ∧
        (∀ u v, u ∈ out.map GraphNode.id → Edge.mk u v ∈ g.edges →
          v ∈ out.map GraphNode.id) := by
  intro fuel
  induction fuel with
  | zero => exact fun v q o d h => absurd h (Nat.not_lt_zero _)
  | succ fuel ih =>
    intro visited queue obs diag h hQN hQR hVR hVN hVO hND hCL
    cases queue with
    | nil =>
      refine ⟨obs.reverse, rfl, ?_, by simp, ?_, ?_, ?_⟩
      · intro x hx
        rw [List.map_reverse, List.mem_reverse]
        exact hx
      · intro t ht
        rw [List.map_reverse, List.mem_reverse] at ht
        exact ⟨hVR t ((hVO t).mpr ht), hVN t ((hVO t).mpr ht)⟩
      · rw [List.map_reverse, List.nodup_reverse]
        exact hND
      · intro u v hu he
        rw [List.map_reverse, List.mem_reverse] at hu ⊢
        rcases hCL u v ((hVO u).mpr hu) he with hv | hv
        · exact (hVO v).mp hv
        · cases hv
    | cons id rest =>
      simp only [bfsAux]
      by_cases hv : id ∈ visited
      · rw [if_pos hv]
        rw [bfsPhi_cons] at h
        have hCL' : ∀ u v, u ∈ visited → Edge.mk u v ∈ g.edges →
            v ∈ visited ∨ v ∈ rest := by
          intro u v hu he
          rcases hCL u v hu he with h1 | h1
          · exact Or.inl h1
          · rcases List.mem_cons.mp h1 with rfl | h1
            · exact Or.inl hv
            · exact Or.inr h1
        obtain ⟨out, heq, h1, h2, h3, h4, h5⟩ :=
          ih visited rest obs diag (by omega)
            (fun q hq => hQN q (List.mem_cons_of_mem _ hq))
            (fun q hq => hQR q (List.mem_cons_of_mem _ hq)) hVR hVN hVO hND hCL'
        refine ⟨out, heq, h1, ?_, h3, h4, h5⟩
        intro q hq
        rcases List.mem_cons.mp hq with rfl | hq
        · exact h1 q ((hVO q).mp hv)
        · exact h2 q hq
      · rw [if_neg hv]
        cases hn : g.get_node id with
        | none =>
          exact absurd ((get_node_none_iff g id).mp hn)
            (not_not.mpr (hQN id (List.mem_cons_self id rest)))
        | some node =>
          obtain ⟨hid_eq, hmem, hnbr, hlen⟩ := get_node_some_elim g id node hn
          rw [bfsPhi_cons] at h
          have hΦ := bfsPhi_visit_node g id visited rest node.neighbours hmem hv hlen
          rw [bfsPhi_cons] at hΦ
          have hQN' : ∀ q ∈ rest ++ node.neighbours, q ∈ nodeIds g := by
            intro q hq
            rcases List.mem_append.mp hq with hq | hq
            · exact hQN q (List.mem_cons_of_mem _ hq)
            · have he := (hnbr q).mp hq
              have := (hwf _ he).2
              rw [containsId_iff_mem] at this
              exact this
          have hQR' : ∀ q ∈ rest ++ node.neighbours, Reachable g s q := by
            intro q hq
            rcases List.mem_append.mp hq with hq | hq
            · exact hQR q (List.mem_cons_of_mem _ hq)
            · exact Relation.ReflTransGen.tail (hQR id (List.mem_cons_self id rest))
                ((hnbr q).mp hq)
          have hVR' : ∀ v ∈ id :: visited, Reachable g s v := by
            intro v hvv
            rcases List.mem_cons.mp hvv with rfl | hvv
            · exact hQR v (List.mem_cons_self v rest)
            · exact hVR v hvv
          have hVN' : ∀ v ∈ id :: visited, v ∈ nodeIds g := by
            intro v hvv
            rcases List.mem_cons.mp hvv with rfl | hvv
            · exact hmem
            · exact hVN v hvv
          have hVO' : ∀ x, x ∈ id :: visited ↔ x ∈ (node :: obs).map GraphNode.id := by
            intro x
            rw [List.map_cons, hid_eq, List.mem_cons, List.mem_cons]
            exact or_congr Iff.rfl (hVO x)
          have hND' : ((node :: obs).map GraphNode.id).Nodup := by
            rw [List.map_cons, List.nodup_cons, hid_eq]
            exact ⟨fun hc => hv ((hVO id).mpr hc), hND⟩
          have hCL' : ∀ u v, u ∈ id :: visited → Edge.mk u v ∈ g.edges →
              v ∈ id :: visited ∨ v ∈ rest ++ node.neighbours := by
            intro u v hu he
            rcases List.mem_cons.mp hu with rfl | hu
            · exact Or.inr (List.mem_append_right _ ((hnbr v).mpr he))
            · rcases hCL u v hu he with h1 | h1
              · exact Or.inl (List.mem_cons_of_mem _ h1)
              · rcases List.mem_cons.mp h1 with rfl | h1
                · exact Or.inl (List.mem_cons_self v visited)
                · exact Or.inr (List.mem_append_left _ h1)
          obtain ⟨out, heq, h1, h2, h3, h4, h5⟩ :=
            ih (id :: visited) (rest ++ node.neighbours) (node :: obs) diag
              (by omega) hQN' hQR' hVR' hVN' hVO' hND' hCL'
          refine ⟨out, heq, ?_, ?_, h3, h4, h5⟩
          · intro x hx
            exact h1 x (by rw [List.map_cons]; exact List.mem_cons_of_mem _ hx)
          · intro q hq
            rcases List.mem_cons.mp hq with rfl | hq
            · exact h1 q (by rw [List.map_cons, hid_eq]; exact List.mem_cons_self q _)
            · exact h2 q (List.mem_append_left _ hq)

theorem bfsPhi_init {T : Type} (g : Graph T) (s : GraphId) :
    bfsPhi g [] [s] = g.nodes.length * (1 + g.edges.length) + 1 := by
  simp [bfsPhi, nodeIds]

/-- Claim C5: the BFS loop always terminates within the `O(nodes * edges)`
fuel bound (running it with any extra fuel changes nothing, i.e. the queue
empties within the bound, on cyclic graphs included), and from an existing
source on a well-formed graph it emits one observation per node reachable
from the source, none twice, and none for any other node, with the number of
observations bounded by the node count. -/
theorem c5_bfs_correct {T : Type} (g : Graph T) (s : GraphId) :
    (∀ k, bfsAux g (bfsFuel g + k) [] [s] [] 0 = g.bfs s) ∧
    (g.WF → (nodeIds g).Nodup → s ∈ nodeIds g →
      ((g.bfs s).1.map GraphNode.id).Nodup ∧
      (∀ t, t ∈ (g.bfs s).1.map GraphNode.id ↔ Reachable g s t) ∧
      (g.bfs s).1.length ≤ g.nodes.length) := by
  have hΦ : bfsPhi g [] [s] < bfsFuel g := by
    rw [bfsPhi_init, bfsFuel]
    omega
  constructor
  · intro k
    rw [Graph.bfs]
    exact bfsAux_fuel_congr g (bfsFuel g + k) (bfsFuel g) [] [s] [] 0 (by omega) hΦ
  · intro hwf hnd hs
    obtain ⟨out, heq, h1, h2, h3, h4, h5⟩ :=
      bfsAux_spec g s hwf (bfsFuel g) [] [s] [] 0 hΦ
        (by
          intro q hq
          rcases List.mem_cons.mp hq with rfl | hq
          · exact hs
          · cases hq)
        (by
          intro q hq
          rcases List.mem_cons.mp hq with rfl | hq
          · exact Relation.ReflTransGen.refl
          · cases hq)
        (by intro v hv; cases hv)
        (by intro v hv; cases hv)
        (by intro x; simp)
        (by simp)
        (by intro u v hu; cases hu)
    have hbfs : g.bfs s = (out, 0) := by
      rw [Graph.bfs]
      exact heq
    refine ⟨?_, ?_, ?_⟩
    · rw [hbfs]
      exact h4
    · intro t
      rw [hbfs]
      constructor
      · exact fun ht => (h3 t ht).1
      · intro ht
        have hs_out : s ∈ out.map GraphNode.id := h2 s (List.mem_cons_self s [])
        induction ht with
        | refl => exact hs_out
        | tail hab hbc ihab => exact h5 _ _ ihab hbc
    · rw [hbfs]
      show out.length ≤ g.nodes.length
      have hlen : (out.map GraphNode.id).length = out.length := List.length_map out GraphNode.id
      have hsub : (out.map GraphNode.id).toFinset ⊆ (nodeIds g).toFinset := by
        intro x hx
        rw [List.mem_toFinset] at hx ⊢
        exact (h3 x hx).2
      have hcard1 : (out.map GraphNode.id).toFinset.card = (out.map GraphNode.id).length :=
        List.toFinset_card_of_nodup h4
      have hcard2 : (nodeIds g).toFinset.card = (nodeIds g).length :=
        List.toFinset_card_of_nodup hnd
      have hcard3 := Finset.card_le_card hsub
      have hlen2 : (nodeIds g).length = g.nodes.length := List.length_map g.nodes Prod.fst
      omega

/-- Witness for C5 on a cyclic graph with an unreachable node. -/
theorem c5_bfs_correct_witness :
    (((Graph.mk [(1, (0 : Nat)), (2, 0), (3, 0)]
        [Edge.mk 1 2, Edge.mk 2 1]).bfs 1).1.map GraphNode.id).Nodup ∧
    ((Graph.mk [(1, (0 : Nat)), (2, 0), (3, 0)] [Edge.mk 1 2, Edge.mk 2 1]).bfs 1).1.length ≤
      (Graph.mk [(1, (0 : Nat)), (2, 0), (3, 0)] [Edge.mk 1 2, Edge.mk 2 1]).nodes.length :=
  ⟨((c5_bfs_correct _ 1).2 (by decide) (by decide) (by decide)).1,
   ((c5_bfs_correct _ 1).2 (by decide) (by decide) (by decide)).2.2⟩

/-- Claim C6: BFS from a source id that is not in the node map completes
(no panic: the `unwrap_or_default` never sees an empty queue and the missing
node is handled), emits zero observations, and reports exactly one
diagnostic; the return value carries no error to the caller. -/
theorem c6_bfs_missing_source {T : Type} (g : Graph T) (s : GraphId)
    (hs : s ∉ nodeIds g) : g.bfs s = ([], 1) := by
  have hn : g.get_node s = none := (get_node_none_iff g s).mpr hs
  rw [Graph.bfs, bfsFuel]
  show bfsAux g (g.nodes.length * (1 + g.edges.length) + 1 + 1) [] [s] [] 0 = ([], 1)
  simp [bfsAux, hn]

/-- Witness for C6. -/
theorem c6_bfs_missing_source_witness :
    9 ∉ nodeIds (Graph.mk [(1, (0 : Nat))] [Edge.mk 1 1]) ∧
    (Graph.mk [(1, (0 : Nat))] [Edge.mk 1 1]).bfs 9 = ([], 1) :=
  ⟨by decide, c6_bfs_missing_source _ 9 (by decide)⟩

/-! ## Decimal digit lemmas -/

theorem isDigitChar_digitChar (d : Nat) : isDigitChar (digitChar d) = true := by
  rw [digitChar.eq_def]
  split <;> decide

theorem digitVal_digitChar (d : Nat) (h : d < 10) : digitVal (digitChar d) = d := by
  rw [digitChar.eq_def]
  split <;> try decide
  rename_i h0 h1 h2 h3 h4 h5 h6 h7 h8
  simp only [imp_false] at h0 h1 h2 h3 h4 h5 h6 h7 h8
  have h9 : d = 9 := by omega
  subst h9
  decide

theorem natToDigitsAux_eq : ∀ fuel n acc, n < fuel →
    natToDigitsAux fuel n acc = natToDigitsSpec n ++ acc := by
  intro fuel
  induction fuel with
  | zero => exact fun n acc h => absurd h (Nat.not_lt_zero _)
  | succ fuel ih =>
    intro n acc h
    rw [natToDigitsAux, natToDigitsSpec]
    by_cases h10 : n < 10
    · rw [if_pos h10, if_pos h10]
      rfl
    · rw [if_neg h10, if_neg h10]
      have hdiv : n / 10 < n := Nat.div_lt_self (by omega) (by omega)
      rw [ih (n / 10) _ (by omega)]
      simp

theorem natToDigits_eq (n : Nat) : natToDigits n = natToDigitsSpec n := by
  rw [natToDigits, natToDigitsAux_eq (n + 1) n [] (by omega), List.append_nil]

theorem natToDigitsSpec_ne_nil (n : Nat) : natToDigitsSpec n ≠ [] := by
  rw [natToDigitsSpec]
  split
  · exact List.cons_ne_nil _ _
  · simp

theorem natToDigitsSpec_all_digits : ∀ n, ∀ c ∈ natToDigitsSpec n, isDigitChar c = true := by
  intro n
  induction n using Nat.strong_induction_on with
  | _ n ih =>
    rw [natToDigitsSpec]
    split
    · intro c hc
      rw [List.mem_singleton] at hc
      subst hc
      exact isDigitChar_digitChar _
    · intro c hc
      rcases List.mem_append.mp hc with hc | hc
      · exact ih (n / 10) (Nat.div_lt_self (by omega) (by omega)) c hc
      · rw [List.mem_singleton] at hc
        subst hc
        exact isDigitChar_digitChar _

theorem foldDigits_step (a : Nat) (ds : List Char) (c : Char) :
    List.foldl (fun a c => a * 10 + digitVal c) a (ds ++ [c]) =
      (List.foldl (fun a c => a * 10 + digitVal c) a ds) * 10 + digitVal c := by
  rw [List.foldl_append]
  rfl

theorem foldl_natToDigitsSpec : ∀ n a,
    List.foldl (fun a c => a * 10 + digitVal c) a (natToDigitsSpec n) =
      a * 10 ^ (natToDigitsSpec n).length + n := by
  intro n
  induction n using Nat.strong_induction_on with
  | _ n ih =>
    intro a
    rw [natToDigitsSpec]
    by_cases h10 : n < 10
    · rw [if_pos h10]
      simp [List.foldl, digitVal_digitChar n h10]
    · rw [if_neg h10]
      have hdiv : n / 10 < n := Nat.div_lt_self (by omega) (by omega)
      rw [foldDigits_step, ih (n / 10) hdiv a, List.length_append, List.length_singleton,
        digitVal_digitChar (n % 10) (Nat.mod_lt _ (by omega)), pow_succ]
      have hmod := Nat.div_add_mod n 10
      ring_nf
      omega

theorem foldDigits_natToDigits (n : Nat) : foldDigits (natToDigits n) = n := by
  rw [natToDigits_eq, foldDigits, foldl_natToDigitsSpec]
  simp

theorem natToDigits_ne_nil (n : Nat) : natToDigits n ≠ [] := by
  rw [natToDigits_eq]
  exact natToDigitsSpec_ne_nil n

theorem natToDigits_all_digits (n : Nat) : ∀ c ∈ natToDigits n, isDigitChar c = true := by
  rw [natToDigits_eq]
  exact natToDigitsSpec_all_digits n

/-! ## takeWhile / dropWhile support -/

theorem takeWhile_append_all {α : Type} (p : α → Bool) (xs ys : List α)
    (h : ∀ c ∈ xs, p c = true) :
    (xs ++ ys).takeWhile p = xs ++ ys.takeWhile p := by
  induction xs with
  | nil => simp
  | cons a l ih =>
    rw [List.cons_append, List.takeWhile_cons, if_pos (h a (List.mem_cons_self a l)),
      ih fun c hc => h c (List.mem_cons_of_mem a hc), List.cons_append]

theorem dropWhile_append_all {α : Type} (p : α → Bool) (xs ys : List α)
    (h : ∀ c ∈ xs, p c = true) :
    (xs ++ ys).dropWhile p = ys.dropWhile p := by
  induction xs with
  | nil => simp
  | cons a l ih =>
    rw [List.cons_append, List.dropWhile_cons, if_pos (h a (List.mem_cons_self a l))]
    exact ih fun c hc => h c (List.mem_cons_of_mem a hc)

theorem takeWhile_nil_headFalse {α : Type} (p : α → Bool) (ys : List α)
    (h : ∀ c, ys.head? = some c → p c = false) : ys.takeWhile p = [] := by
  cases ys with
  | nil => rfl
  | cons a l =>
    rw [List.takeWhile_cons, if_neg]
    rw [h a rfl]
    simp

theorem dropWhile_self_headFalse {α : Type} (p : α → Bool) (ys : List α)
    (h : ∀ c, ys.head? = some c → p c = false) : ys.dropWhile p = ys := by
  cases ys with
  | nil => rfl
  | cons a l =>
    rw [List.dropWhile_cons, if_neg]
    rw [h a rfl]
    simp

theorem headNonDigit_elim (s : List Char) (h : headNonDigit s = true) :
    ∀ c, s.head? = some c → isDigitChar c = false := by
  cases s with
  | nil => intro c hc; cases hc
  | cons a l =>
    intro c hc
    obtain rfl := Option.some.inj hc
    simp only [headNonDigit, Bool.not_eq_true'] at h
    exact h

theorem lineSafe_elim (s : List Char) (h : lineSafe s = true) :
    ∀ c ∈ s, (!decide (c = '\r') && !decide (c = '\n')) = true := by
  rw [lineSafe, List.all_eq_true] at h
  exact h

/-! ## Primitive parser lemmas -/

theorem u64P_digits (n : Nat) (rest : List Char) (hn : n < 2 ^ 64)
    (hrest : headNonDigit rest = true) :
    u64P (natToDigits n ++ rest) = .ok rest n := by
  have htW : (natToDigits n ++ rest).takeWhile isDigitChar = natToDigits n := by
    rw [takeWhile_append_all isDigitChar _ _ (natToDigits_all_digits n),
      takeWhile_nil_headFalse isDigitChar rest (headNonDigit_elim rest hrest),
      List.append_nil]
  have hdW : (natToDigits n ++ rest).dropWhile isDigitChar = rest := by
    rw [dropWhile_append_all isDigitChar _ _ (natToDigits_all_digits n),
      dropWhile_self_headFalse isDigitChar rest (headNonDigit_elim rest hrest)]
  simp only [u64P, htW, hdW]
  rw [if_neg (by simp [List.isEmpty_iff, natToDigits_ne_nil n]),
    foldDigits_natToDigits, if_pos hn]

theorem u64P_err (s : List Char) (h : headNonDigit s = true) : u64P s = .err s := by
  simp only [u64P]
  rw [takeWhile_nil_headFalse isDigitChar s (headNonDigit_elim s h)]
  rfl

theorem noLeadSpace_append (val rest : List Char) (h : noLeadSpace val = true)
    (hrest : rest = [] ∨ ∃ r, rest = '\n' :: r) :
    noLeadSpace (val ++ rest) = true := by
  cases val with
  | nil =>
    rw [List.nil_append]
    rcases hrest with rfl | ⟨r, rfl⟩
    · rfl
    · simp only [noLeadSpace]
      decide
  | cons a l =>
    rw [List.cons_append]
    simp only [noLeadSpace] at h ⊢
    exact h

theorem space1P_space (s : List Char) (h : noLeadSpace s = true) :
    space1P (' ' :: s) = .ok s () := by
  have hs : ∀ c, s.head? = some c → isSpaceTab c = false := by
    cases s with
    | nil => intro c hc; cases hc
    | cons a l =>
      intro c hc
      obtain rfl := Option.some.inj hc
      simp only [noLeadSpace, Bool.not_eq_true'] at h
      exact h
  have ht : List.takeWhile isSpaceTab (' ' :: s) = [' '] := by
    rw [List.takeWhile_cons, if_pos (show isSpaceTab ' ' = true from rfl),
      takeWhile_nil_headFalse _ _ hs]
  have hd : List.dropWhile isSpaceTab (' ' :: s) = s := by
    rw [List.dropWhile_cons, if_pos (show isSpaceTab ' ' = true from rfl)]
    exact dropWhile_self_headFalse _ _ hs
  simp only [space1P, ht, hd]
  rfl

theorem notLineEndingP_ok (t rest : List Char) (ht : lineSafe t = true)
    (hrest : rest = [] ∨ ∃ r, rest = '\n' :: r) :
    notLineEndingP (t ++ rest) = .ok rest t := by
  have hhead : ∀ c, rest.head? = some c →
      (!decide (c = '\r') && !decide (c = '\n')) = false := by
    rcases hrest with rfl | ⟨r, rfl⟩
    · intro c hc; cases hc
    · intro c hc
      obtain rfl := Option.some.inj hc
      decide
  simp only [notLineEndingP]
  rw [takeWhile_append_all _ _ _ (lineSafe_elim t ht),
    takeWhile_nil_headFalse _ _ hhead, List.append_nil,
    dropWhile_append_all _ _ _ (lineSafe_elim t ht),
    dropWhile_self_headFalse _ _ hhead]
  rcases hrest with rfl | ⟨r, rfl⟩
  · rfl
  · rfl

theorem pairElem_ok {α : Type} (pv : List Char → Option α) (i : Nat) (v : α)
    (val r : List Char) (hi : i < 2 ^ 64) (hsafe : lineSafe val = true)
    (hlead : noLeadSpace val = true) (hpv : pv val = some v) :
    pairElem pv (natToDigits i ++ ' ' :: (val ++ '\n' :: r)) = .ok ('\n' :: r) (i, v) := by
  have h1 : u64P (natToDigits i ++ ' ' :: (val ++ '\n' :: r)) =
      .ok (' ' :: (val ++ '\n' :: r)) i :=
    u64P_digits i _ hi (by simp only [headNonDigit]; decide)
  have h2 : space1P (' ' :: (val ++ '\n' :: r)) = .ok (val ++ '\n' :: r) () :=
    space1P_space _ (noLeadSpace_append val ('\n' :: r) hlead (Or.inr ⟨r, rfl⟩))
  have h3 : mapParser notLineEndingP (parse_value pv) (val ++ '\n' :: r) =
      .ok ('\n' :: r) v := by
    simp only [mapParser, notLineEndingP_ok val ('\n' :: r) hsafe (Or.inr ⟨r, rfl⟩),
      parse_value, hpv]
  simp only [pairElem, separatedPair, h1, h2, h3]

theorem pairElem_err {α : Type} (pv : List Char → Option α) (s : List Char)
    (h : headNonDigit s = true) : pairElem pv s = .err s := by
  simp only [pairElem, separatedPair, u64P_err s h]

theorem pairElem_fail {α : Type} (pv : List Char → Option α) (i : Nat)
    (bad rest : List Char) (hi : i < 2 ^ 64) (hsafe : lineSafe bad = true)
    (hlead : noLeadSpace bad = true) (hpv : pv bad = none)
    (hrest : rest = [] ∨ ∃ r, rest = '\n' :: r) :
    pairElem pv (natToDigits i ++ ' ' :: (bad ++ rest)) = .fail bad := by
  have h1 : u64P (natToDigits i ++ ' ' :: (bad ++ rest)) =
      .ok (' ' :: (bad ++ rest)) i :=
    u64P_digits i _ hi (by simp only [headNonDigit]; decide)
  have h2 : space1P (' ' :: (bad ++ rest)) = .ok (bad ++ rest) () :=
    space1P_space _ (noLeadSpace_append bad rest hlead hrest)
  have h3 : mapParser notLineEndingP (parse_value pv) (bad ++ rest) = .fail bad := by
    simp only [mapParser, notLineEndingP_ok bad rest hsafe hrest, parse_value, hpv]
  simp only [pairElem, separatedPair, h1, h2, h3]

/-! ## Section-level parsing lemmas -/

theorem lineEndingP_nl (xs : List Char) : lineEndingP ('\n' :: xs) = .ok xs () := rfl

theorem renderPairs_cons_len {α : Type} (disp : α → List Char) (q : GraphId × α)
    (qs : List (GraphId × α)) :
    (renderPairs disp (q :: qs)).length =
      (natToDigits q.1).length + 1 + (disp q.2).length + 1 + (renderPairs disp qs).length := by
  simp only [renderPairs, List.length_append, List.length_cons]
  omega

theorem natToDigits_len_pos (n : Nat) : 0 < (natToDigits n).length :=
  List.length_pos.mpr (natToDigits_ne_nil n)

theorem sepListLoop_render {α : Type} (pv : List Char → Option α) (disp : α → List Char) :
    ∀ (ps : List (GraphId × α)) (fuel : Nat) (acc : List (GraphId × α)) (rest : List Char),
      (∀ p ∈ ps, GoodPair pv disp p) → headNonDigit rest = true →
      (renderPairs disp ps ++ rest).length < fuel →
      sepListLoop lineEndingP (pairElem pv) fuel acc
          ('\n' :: (renderPairs disp ps ++ rest)) =
        .ok ('\n' :: rest) (acc.reverse ++ ps) := by
  intro ps
  induction ps with
  | nil =>
    intro fuel acc rest hgood hrest hfuel
    cases fuel with
    | zero => exact absurd hfuel (Nat.not_lt_zero _)
    | succ fuel =>
      simp only [renderPairs, List.nil_append] at *
      simp only [sepListLoop, lineEndingP_nl]
      rw [if_neg (by simp only [List.length_cons]; omega), pairElem_err pv rest hrest]
      simp
  | cons q qs ih =>
    intro fuel acc rest hgood hrest hfuel
    obtain ⟨qi, qv⟩ := q
    cases fuel with
    | zero => exact absurd hfuel (Nat.not_lt_zero _)
    | succ fuel =>
      obtain ⟨hq1, hq2, hq3, hq4⟩ := hgood (qi, qv) (List.mem_cons_self _ qs)
      have hline : renderPairs disp ((qi, qv) :: qs) ++ rest =
          natToDigits qi ++ ' ' :: (disp qv ++ '\n' :: (renderPairs disp qs ++ rest)) := by
        simp [renderPairs, List.append_assoc]
      simp only [sepListLoop, lineEndingP_nl]
      rw [if_neg (by simp only [List.length_cons]; omega)]
      rw [hline]
      simp only [pairElem_ok pv qi qv (disp qv) (renderPairs disp qs ++ rest) hq1 hq2 hq3 hq4]
      have hfuel' : (renderPairs disp qs ++ rest).length < fuel := by
        have hlen := renderPairs_cons_len disp (qi, qv) qs
        have hpos := natToDigits_len_pos qi
        simp only [List.length_append] at hfuel ⊢
        omega
      rw [ih fuel ((qi, qv) :: acc) rest
        (fun p hp => hgood p (List.mem_cons_of_mem _ hp)) hrest hfuel']
      simp

theorem parse_pairs_nil_of_headNonDigit {α : Type} (pv : List Char → Option α)
    (rest : List Char) (h : headNonDigit rest = true) :
    parse_pairs pv rest = .ok rest [] := by
  simp only [parse_pairs, separatedList0, pairElem_err pv rest h]

theorem parse_pairs_render_cons {α : Type} (pv : List Char → Option α)
    (disp : α → List Char) (q : GraphId × α) (qs : List (GraphId × α)) (rest : List Char)
    (hgood : ∀ p ∈ q :: qs, GoodPair pv disp p) (hrest : headNonDigit rest = true) :
    parse_pairs pv (renderPairs disp (q :: qs) ++ rest) = .ok ('\n' :: rest) (q :: qs) := by
  obtain ⟨qi, qv⟩ := q
  obtain ⟨hq1, hq2, hq3, hq4⟩ := hgood (qi, qv) (List.mem_cons_self _ qs)
  have hline : renderPairs disp ((qi, qv) :: qs) ++ rest =
      natToDigits qi ++ ' ' :: (disp qv ++ '\n' :: (renderPairs disp qs ++ rest)) := by
    simp [renderPairs, List.append_assoc]
  rw [hline]
  simp only [parse_pairs, separatedList0,
    pairElem_ok pv qi qv (disp qv) (renderPairs disp qs ++ rest) hq1 hq2 hq3 hq4]
  rw [sepListLoop_render pv disp qs (('\n' :: (renderPairs disp qs ++ rest)).length + 1)
    [(qi, qv)] rest (fun p hp => hgood p (List.mem_cons_of_mem _ hp)) hrest
    (by simp only [List.length_cons]; omega)]
  simp

theorem sepListLoop_fail {α : Type} (pv : List Char → Option α) (disp : α → List Char)
    (i : Nat) (bad tail : List Char) (hi : i < 2 ^ 64) (hsafe : lineSafe bad = true)
    (hlead : noLeadSpace bad = true) (hpv : pv bad = none)
    (htail : tail = [] ∨ ∃ r, tail = '\n' :: r) :
    ∀ (ps : List (GraphId × α)) (fuel : Nat) (acc : List (GraphId × α)),
      (∀ p ∈ ps, GoodPair pv disp p) →
      (renderPairs disp ps ++ (natToDigits i ++ ' ' :: (bad ++ tail))).length < fuel →
      sepListLoop lineEndingP (pairElem pv) fuel acc
          ('\n' :: (renderPairs disp ps ++ (natToDigits i ++ ' ' :: (bad ++ tail)))) =
        .fail bad := by
  intro ps
  induction ps with
  | nil =>
    intro fuel acc hgood hfuel
    cases fuel with
    | zero => exact absurd hfuel (Nat.not_lt_zero _)
    | succ fuel =>
      simp only [renderPairs, List.nil_append] at *
      simp only [sepListLoop, lineEndingP_nl]
      rw [if_neg (by simp only [List.length_cons]; omega)]
      simp only [pairElem_fail pv i bad tail hi hsafe hlead hpv htail]
  | cons q qs ih =>
    intro fuel acc hgood hfuel
    obtain ⟨qi, qv⟩ := q
    cases fuel with
    | zero => exact absurd hfuel (Nat.not_lt_zero _)
    | succ fuel =>
      obtain ⟨hq1, hq2, hq3, hq4⟩ := hgood (qi, qv) (List.mem_cons_self _ qs)
      have hline : renderPairs disp ((qi, qv) :: qs) ++
          (natToDigits i ++ ' ' :: (bad ++ tail)) =
          natToDigits qi ++ ' ' :: (disp qv ++ '\n' ::
            (renderPairs disp qs ++ (natToDigits i ++ ' ' :: (bad ++ tail)))) := by
        simp [renderPairs, List.append_assoc]
      simp only [sepListLoop, lineEndingP_nl]
      rw [if_neg (by simp only [List.length_cons]; omega)]
      rw [hline]
      simp only [pairElem_ok pv qi qv (disp qv) _ hq1 hq2 hq3 hq4]
      have hfuel' : (renderPairs disp qs ++ (natToDigits i ++ ' ' :: (bad ++ tail))).length <
          fuel := by
        have hlen := renderPairs_cons_len disp (qi, qv) qs
        have hpos := natToDigits_len_pos qi
        simp only [List.length_append] at hfuel ⊢
        omega
      exact ih fuel ((qi, qv) :: acc)
        (fun p hp => hgood p (List.mem_cons_of_mem _ hp)) hfuel'

theorem parse_pairs_fail {α : Type} (pv : List Char → Option α) (disp : α → List Char)
    (ps : List (GraphId × α)) (i : Nat) (bad tail : List Char)
    (hi : i < 2 ^ 64) (hsafe : lineSafe bad = true) (hlead : noLeadSpace bad = true)
    (hpv : pv bad = none) (htail : tail = [] ∨ ∃ r, tail = '\n' :: r)
    (hgood : ∀ p ∈ ps, GoodPair pv disp p) :
    parse_pairs pv (renderPairs disp ps ++ (natToDigits i ++ ' ' :: (bad ++ tail))) =
      .fail bad := by
  cases ps with
  | nil =>
    simp only [renderPairs, List.nil_append]
    simp only [parse_pairs, separatedList0,
      pairElem_fail pv i bad tail hi hsafe hlead hpv htail]
  | cons q qs =>
    obtain ⟨qi, qv⟩ := q
    obtain ⟨hq1, hq2, hq3, hq4⟩ := hgood (qi, qv) (List.mem_cons_self _ qs)
    have hline : renderPairs disp ((qi, qv) :: qs) ++
        (natToDigits i ++ ' ' :: (bad ++ tail)) =
        natToDigits qi ++ ' ' :: (disp qv ++ '\n' ::
          (renderPairs disp qs ++ (natToDigits i ++ ' ' :: (bad ++ tail)))) := by
      simp [renderPairs, List.append_assoc]
    rw [hline]
    simp only [parse_pairs, separatedList0,
      pairElem_ok pv qi qv (disp qv) _ hq1 hq2 hq3 hq4]
    exact sepListLoop_fail pv disp i bad tail hi hsafe hlead hpv htail qs _ [(qi, qv)]
      (fun p hp => hgood p (List.mem_cons_of_mem _ hp))
      (by simp only [List.length_cons]; omega)

/-! ## Edge-value parsing and rendering facts -/

theorem lineSafe_natToDigits (n : Nat) : lineSafe (natToDigits n) = true := by
  rw [lineSafe, List.all_eq_true]
  intro c hc
  have hd := natToDigits_all_digits n c hc
  have h1 : ¬ c = '\r' := fun hc' => by
    rw [hc'] at hd
    exact absurd hd (by decide)
  have h2 : ¬ c = '\n' := fun hc' => by
    rw [hc'] at hd
    exact absurd hd (by decide)
  simp [h1, h2]

theorem noLeadSpace_natToDigits (n : Nat) : noLeadSpace (natToDigits n) = true := by
  cases hd : natToDigits n with
  | nil => exact absurd hd (natToDigits_ne_nil n)
  | cons c cs =>
    have hdig := natToDigits_all_digits n c (hd ▸ List.mem_cons_self c cs)
    have h1 : ¬ c = ' ' := fun hc' => by
      rw [hc'] at hdig
      exact absurd hdig (by decide)
    have h2 : ¬ c = '\t' := fun hc' => by
      rw [hc'] at hdig
      exact absurd hdig (by decide)
    simp [noLeadSpace, isSpaceTab, h1, h2]

theorem u64FromStr_natToDigits (n : Nat) (h : n < 2 ^ 64) :
    u64FromStr (natToDigits n) = some n := by
  have hds : (match natToDigits n with | '+' :: r => r | r => r) = natToDigits n := by
    split
    · rename_i r heq
      have hmem : '+' ∈ natToDigits n := by
        rw [heq]
        exact List.mem_cons_self _ _
      exact absurd (natToDigits_all_digits n '+' hmem) (by decide)
    · rfl
  simp only [u64FromStr, hds]
  rw [if_pos (by
    simp only [Bool.and_eq_true, decide_eq_true_eq]
    refine ⟨⟨?_, ?_⟩, ?_⟩
    · simp [List.isEmpty_iff, natToDigits_ne_nil n]
    · rw [List.all_eq_true]
      exact natToDigits_all_digits n
    · rw [foldDigits_natToDigits]
      exact h)]
  rw [foldDigits_natToDigits]

/-- The `GoodPair` conditions for one rendered edge line. -/
theorem edge_goodPair (p : GraphId × GraphId) (h1 : p.1 < 2 ^ 64) (h2 : p.2 < 2 ^ 64) :
    GoodPair u64FromStr natToDigits p :=
  ⟨h1, lineSafe_natToDigits p.2, noLeadSpace_natToDigits p.2, u64FromStr_natToDigits p.2 h2⟩

theorem delim_ok (rest : List Char) :
    delimited lineEndingP (charP '#') lineEndingP ('\n' :: '#' :: '\n' :: rest) =
      .ok rest () := rfl

/-! ## Rebuilding a graph from parsed pair lists -/

theorem addNodes_edges {T : Type} (ns : List (GraphId × T)) :
    ∀ g : Graph T, (ns.foldl (fun g p => g.add_node p.1 p.2) g).edges = g.edges := by
  induction ns with
  | nil => intro g; rfl
  | cons p ps ih =>
    intro g
    rw [List.foldl_cons, ih, add_node_edges]

theorem addEdges_nodes {T : Type} (es : List (GraphId × GraphId)) :
    ∀ g : Graph T, (es.foldl (fun g p => g.add_edge p.1 p.2) g).nodes = g.nodes := by
  induction es with
  | nil => intro g; rfl
  | cons p ps ih =>
    intro g
    rw [List.foldl_cons, ih, add_edge_nodes]

theorem lookupId_add_node {T : Type} (g : Graph T) (i : GraphId) (v : T) (id : GraphId) :
    lookupId id (g.add_node i v).nodes =
      match lookupId id g.nodes with
      | some w => some w
      | none => if i = id then some v else none := by
  rw [Graph.add_node]
  by_cases hc : containsId i g.nodes = true
  · rw [if_pos hc]
    cases h : lookupId id g.nodes with
    | some w => simp [h]
    | none =>
      by_cases hiid : i = id
      · subst hiid
        rw [containsId, h] at hc
        exact absurd hc (by simp)
      · simp [h, hiid]
  · rw [if_neg hc]
    show lookupId id ((i, v) :: g.nodes) = _
    simp only [lookupId]
    by_cases hiid : i = id
    · subst hiid
      rw [if_pos rfl]
      have hlk : lookupId i g.nodes = none := by
        cases h : lookupId i g.nodes with
        | none => rfl
        | some w =>
          rw [containsId, h] at hc
          exact absurd rfl hc
      rw [hlk]
      simp
    · rw [if_neg hiid]
      cases h : lookupId id g.nodes <;> simp [hiid]

theorem addNodes_lookup {T : Type} (ns : List (GraphId × T)) :
    ∀ (g : Graph T) (id : GraphId),
      lookupId id (ns.foldl (fun g p => g.add_node p.1 p.2) g).nodes =
        match lookupId id g.nodes with
        | some v => some v
        | none => lookupId id ns := by
  induction ns with
  | nil =>
    intro g id
    cases h : lookupId id g.nodes <;> simp [lookupId, h]
  | cons p ps ih =>
    intro g id
    rw [List.foldl_cons, ih (g.add_node p.1 p.2) id, lookupId_add_node]
    cases h : lookupId id g.nodes with
    | some w => simp
    | none =>
      simp only [lookupId]
      by_cases hpid : p.1 = id
      · rw [if_pos hpid, if_pos hpid]
      · rw [if_neg hpid, if_neg hpid]

theorem fromLists_lookup {T : Type} (ns : List (GraphId × T))
    (es : List (GraphId × GraphId)) (id : GraphId) :
    lookupId id (Graph.fromLists ns es).nodes = lookupId id ns := by
  rw [Graph.fromLists, addEdges_nodes, addNodes_lookup]
  rfl

theorem add_edge_mem_of_contains {T : Type} (g : Graph T) (a b : GraphId)
    (ha : containsId a g.nodes = true) (hb : containsId b g.nodes = true) (x : Edge) :
    x ∈ (g.add_edge a b).edges ↔ x = Edge.mk a b ∨ x ∈ g.edges := by
  rw [Graph.add_edge, if_pos (by rw [ha, hb]; rfl)]
  by_cases hmem : Edge.mk a b ∈ g.edges
  · rw [if_pos hmem]
    constructor
    · exact Or.inr
    · rintro (rfl | hx)
      · exact hmem
      · exact hx
  · rw [if_neg hmem]
    show x ∈ Edge.mk a b :: g.edges ↔ _
    rw [List.mem_cons]

theorem addEdges_mem {T : Type} (es : List (GraphId × GraphId)) :
    ∀ g : Graph T,
      (∀ p ∈ es, containsId p.1 g.nodes = true ∧ containsId p.2 g.nodes = true) →
      ∀ x : Edge, x ∈ (es.foldl (fun g p => g.add_edge p.1 p.2) g).edges ↔
        x ∈ g.edges ∨ (x.from_, x.to_) ∈ es := by
  induction es with
  | nil =>
    intro g hc x
    simp
  | cons p ps ih =>
    intro g hc x
    obtain ⟨pa, pb⟩ := p
    obtain ⟨xa, xb⟩ := x
    rw [List.foldl_cons]
    have hc' : ∀ q ∈ ps, containsId q.1 (g.add_edge pa pb).nodes = true ∧
        containsId q.2 (g.add_edge pa pb).nodes = true := by
      intro q hq
      rw [add_edge_nodes]
      exact hc q (List.mem_cons_of_mem _ hq)
    rw [ih (g.add_edge pa pb) hc' (Edge.mk xa xb)]
    obtain ⟨h1, h2⟩ := hc (pa, pb) (List.mem_cons_self _ ps)
    rw [add_edge_mem_of_contains g pa pb h1 h2 (Edge.mk xa xb)]
    simp only [Edge.mk.injEq, List.mem_cons, Prod.mk.injEq]
    tauto

theorem fromLists_edges_mem {T : Type} (ns : List (GraphId × T))
    (es : List (GraphId × GraphId))
    (hcov : ∀ p ∈ es, (lookupId p.1 ns).isSome = true ∧ (lookupId p.2 ns).isSome = true) :
    ∀ x : Edge, x ∈ (Graph.fromLists ns es).edges ↔ (x.from_, x.to_) ∈ es := by
  intro x
  rw [Graph.fromLists]
  have hlk : ∀ id, lookupId id (ns.foldl (fun g p => g.add_node p.1 p.2)
      (Graph.new : Graph T)).nodes = lookupId id ns := by
    intro id
    rw [addNodes_lookup]
    rfl
  have hcov' : ∀ p ∈ es,
      containsId p.1 (ns.foldl (fun g p => g.add_node p.1 p.2) (Graph.new : Graph T)).nodes
        = true ∧
      containsId p.2 (ns.foldl (fun g p => g.add_node p.1 p.2) (Graph.new : Graph T)).nodes
        = true := by
    intro p hp
    rw [containsId, containsId, hlk, hlk]
    exact hcov p hp
  rw [addEdges_mem es _ hcov' x, addNodes_edges]
  simp [Graph.new]

theorem pair_mem_map_edges (x : Edge) (l : List Edge) :
    (x.from_, x.to_) ∈ l.map (fun e => (e.from_, e.to_)) ↔ x ∈ l := by
  rw [List.mem_map]
  constructor
  · rintro ⟨e, he, heq⟩
    obtain ⟨e1, e2⟩ := e
    obtain ⟨x1, x2⟩ := x
    simp only [Prod.mk.injEq] at heq
    obtain ⟨rfl, rfl⟩ := heq
    exact he
  · intro hx
    exact ⟨x, hx, rfl⟩

/-! ## Whole-input parses of rendered text -/

theorem from_str_render_ok {T : Type} (pv : List Char → Option T) (disp : T → List Char)
    (n0 : GraphId × T) (ns' : List (GraphId × T)) (es : List (GraphId × GraphId))
    (tail : List Char)
    (hns : ∀ p ∈ n0 :: ns', GoodPair pv disp p)
    (hes : ∀ p ∈ es, p.1 < 2 ^ 64 ∧ p.2 < 2 ^ 64)
    (htail : headNonDigit tail = true) :
    from_str pv (renderPairs disp (n0 :: ns') ++
        '#' :: '\n' :: (renderPairs natToDigits es ++ tail)) =
      .ok (Graph.fromLists (n0 :: ns') es) := by
  have h1 := parse_pairs_render_cons pv disp n0 ns'
    ('#' :: '\n' :: (renderPairs natToDigits es ++ tail)) hns
    (by simp only [headNonDigit]; decide)
  have h2 := delim_ok (renderPairs natToDigits es ++ tail)
  obtain ⟨rem, h3⟩ : ∃ rem,
      parse_pairs u64FromStr (renderPairs natToDigits es ++ tail) = .ok rem es := by
    cases es with
    | nil =>
      refine ⟨tail, ?_⟩
      simp only [renderPairs, List.nil_append]
      exact parse_pairs_nil_of_headNonDigit u64FromStr tail htail
    | cons e es' =>
      refine ⟨'\n' :: tail, parse_pairs_render_cons u64FromStr natToDigits e es' tail ?_ htail⟩
      intro p hp
      exact edge_goodPair p (hes p hp).1 (hes p hp).2
  simp only [from_str, separatedPair, h1, h2, h3]

theorem from_str_no_delim {T : Type} (pv : List Char → Option T) (disp : T → List Char)
    (ns : List (GraphId × T)) (hns : ∀ p ∈ ns, GoodPair pv disp p) :
    from_str pv (renderPairs disp ns) = .error [] := by
  cases ns with
  | nil =>
    simp only [renderPairs]
    simp only [from_str, separatedPair, parse_pairs_nil_of_headNonDigit pv [] rfl]
    rfl
  | cons q qs =>
    have h1 : parse_pairs pv (renderPairs disp (q :: qs) ++ []) = .ok ('\n' :: []) (q :: qs) :=
      parse_pairs_render_cons pv disp q qs [] hns rfl
    rw [List.append_nil] at h1
    simp only [from_str, separatedPair, h1]
    rfl

/-! ## Claim C3 -/

/-- Claim C3: when the node section reaches a line whose id parses but whose
value substring is rejected by the value type's parser, the whole parse
returns an error that carries exactly the offending value fragment, and no
graph is returned.  (`good` is any run of well-formed node lines before the
offending one; `tail` is the rest of the input after the offending line's
value, which is never reached.) -/
theorem c3_bad_value_fails_parse {T : Type} (pv : List Char → Option T)
    (disp : T → List Char) (good : List (GraphId × T)) (i : Nat) (bad tail : List Char)
    (hgood : ∀ p ∈ good, GoodPair pv disp p) (hi : i < 2 ^ 64)
    (hsafe : lineSafe bad = true) (hlead : noLeadSpace bad = true)
    (hpv : pv bad = none) (htail : tail = [] ∨ ∃ r, tail = '\n' :: r) :
    from_str pv (renderPairs disp good ++ (natToDigits i ++ ' ' :: (bad ++ tail))) =
      .error bad := by
  have h1 := parse_pairs_fail pv disp good i bad tail hi hsafe hlead hpv htail hgood
  simp only [from_str, separatedPair, h1]

/-- Witness for C3: the spec's own example, `"banana"` where an integer is
expected, on the input `"1 5\n3 banana"`. -/
theorem c3_bad_value_fails_parse_witness :
    u64FromStr (chars ("banana")) = none ∧
    from_str u64FromStr (renderPairs natToDigits [(1, 5)] ++
      (natToDigits 3 ++ ' ' :: (chars ("banana") ++ []))) = .error (chars ("banana")) :=
  ⟨by decide,
   c3_bad_value_fails_parse u64FromStr natToDigits [(1, 5)] 3 (chars ("banana")) []
     (by decide) (by decide) (by decide) (by decide) (by decide) (Or.inl rfl)⟩

/-! ## Claim C4 -/

/-- Claim C4 counterexample: an input whose edge line has a non-numeric id
(`"x 2"` after the delimiter) parses successfully — the edge list simply ends
and the trailing text is dropped — contradicting the claim that every such
malformed input makes the parse return an error. -/
theorem c4_counterexample :
    from_str strPv (chars ("1 v\n#\nx 2")) =
      .ok (Graph.fromLists [(1, chars ("v"))] []) := by
  rfl

/-- Claim C4 amended: a missing `#` delimiter after the node section is a
parse error, but a non-numeric id on an edge line after the delimiter is not
an error: the parse succeeds with the well-formed prefix of the edge section
and the malformed remainder is silently dropped.  (Rejected value text is a
hard error; that part is claim C3's theorem.) -/
theorem c4_amended {T : Type} (pv : List Char → Option T) (disp : T → List Char) :
    (∀ ns : List (GraphId × T), (∀ p ∈ ns, GoodPair pv disp p) →
      from_str pv (renderPairs disp ns) = .error []) ∧
    (∀ (n0 : GraphId × T) (ns' : List (GraphId × T)) (tail : List Char),
      (∀ p ∈ n0 :: ns', GoodPair pv disp p) → headNonDigit tail = true →
      from_str pv (renderPairs disp (n0 :: ns') ++ '#' :: '\n' :: tail) =
        .ok (Graph.fromLists (n0 :: ns') [])) := by
  constructor
  · exact fun ns h => from_str_no_delim pv disp ns h
  · intro n0 ns' tail hns htail
    have h := from_str_render_ok pv disp n0 ns' [] tail hns (by intro p hp; cases hp) htail
    simpa only [renderPairs, List.nil_append] using h

/-- Witness for the amended C4. -/
theorem c4_amended_witness :
    from_str strPv (renderPairs strDisp [(1, chars ("v"))]) = .error [] ∧
    from_str strPv (renderPairs strDisp [(1, chars ("v"))] ++ '#' :: '\n' :: chars ("x 2")) =
      .ok (Graph.fromLists [(1, chars ("v"))] []) :=
  ⟨(c4_amended strPv strDisp).1 [(1, chars ("v"))] (by decide),
   (c4_amended strPv strDisp).2 (1, chars ("v")) [] (chars ("x 2")) (by decide) (by decide)⟩

/-! ## Claim C10 -/

/-- Claim C10 counterexample: on `"1 v\n#\n1 1\n1 x"` the prefix
`"1 v\n#\n1 1"` parses as a node section, the delimiter, and one well-formed
edge line, yet the parse does not succeed: the trailing `"\n1 x"` line has a
valid id and separator, so the parser commits to it and the rejected value
field `"x"` aborts the whole parse instead of being discarded. -/
theorem c10_counterexample :
    from_str strPv (chars ("1 v\n#\n1 1\n1 x")) = .error (chars ("x")) := by
  rfl

/-- Claim C10 amended: unconsumed text after the longest parsable edge list
is silently discarded provided the continuation fails recoverably, i.e. the
trailing text does not begin with a digit (so the parser never commits to
another edge line).  A trailing line with a valid id and separator but a
rejected value field is instead a hard parse failure. -/
theorem c10_amended {T : Type} (pv : List Char → Option T) (disp : T → List Char)
    (n0 : GraphId × T) (ns' : List (GraphId × T)) (es : List (GraphId × GraphId))
    (tail : List Char) (hns : ∀ p ∈ n0 :: ns', GoodPair pv disp p)
    (hes : ∀ p ∈ es, p.1 < 2 ^ 64 ∧ p.2 < 2 ^ 64)
    (htail : headNonDigit tail = true) :
    from_str pv (renderPairs disp (n0 :: ns') ++
        '#' :: '\n' :: (renderPairs natToDigits es ++ tail)) =
      .ok (Graph.fromLists (n0 :: ns') es) :=
  from_str_render_ok pv disp n0 ns' es tail hns hes htail

/-- Witness for the amended C10: one node, one edge, garbage tail `"x 2"`. -/
theorem c10_amended_witness :
    from_str strPv (renderPairs strDisp [(1, chars ("v"))] ++
        '#' :: '\n' :: (renderPairs natToDigits [(1, 1)] ++ chars ("x 2"))) =
      .ok (Graph.fromLists [(1, chars ("v"))] [(1, 1)]) :=
  c10_amended strPv strDisp (1, chars ("v")) [] [(1, 1)] (chars ("x 2"))
    (by decide) (by decide) (by decide)

/-! ## Claim C1 -/

/-- Claim C1 counterexample: the empty graph is constructible from the valid
TGF text `"\n#\n"`, but its serialization is `"#\n"`, which fails to parse:
with no node line there is no line ending before `'#'`, so the delimiter
parser errors out.  Round-trip therefore fails for a graph constructed from
valid text. -/
theorem c1_empty_graph_roundtrip_fails :
    from_str strPv (chars ("\n#\n")) =
      .ok (Graph.fromLists ([] : List (GraphId × List Char)) []) ∧
    from_str strPv ((Graph.fromLists ([] : List (GraphId × List Char)) []).serialize strDisp) =
      .error (chars ("#\n")) := by
  exact ⟨by rfl, by rfl⟩

/-- Claim C1 amended: for every graph with at least one node whose stored
data round-trips linewise — ids fit in `u64`, each displayed value contains
no line break, does not start with a space or tab, and is mapped back to
itself by the value parser (for example `String`, for values parsed from
valid text) — and which satisfies the edge invariant, parsing the
serialization succeeds and yields a graph with the same id-to-value mapping
and the same edge set (set equality; the list orders may differ). -/
theorem c1_roundtrip_amended {T : Type} (pv : List Char → Option T)
    (disp : T → List Char) (G : Graph T) (hne : G.nodes ≠ [])
    (hids : ∀ p ∈ G.nodes, GoodPair pv disp p) (hwf : G.WF) :
    ∃ G', from_str pv (G.serialize disp) = .ok G' ∧
      (∀ id, lookupId id G'.nodes = lookupId id G.nodes) ∧
      (∀ e, e ∈ G'.edges ↔ e ∈ G.edges) := by
  obtain ⟨n0, ns', hG⟩ : ∃ n0 ns', G.nodes = n0 :: ns' := by
    cases h : G.nodes with
    | nil => exact absurd h hne
    | cons a l => exact ⟨a, l, rfl⟩
  have hedge : ∀ p ∈ G.edges.map (fun e => (e.from_, e.to_)),
      p.1 < 2 ^ 64 ∧ p.2 < 2 ^ 64 := by
    intro p hp
    obtain ⟨e, he, rfl⟩ := List.mem_map.mp hp
    obtain ⟨hf, ht⟩ := hwf e he
    rw [containsId_iff_mem] at hf ht
    obtain ⟨q, hq, hqe⟩ := List.mem_map.mp hf
    obtain ⟨r, hr, hre⟩ := List.mem_map.mp ht
    exact ⟨hqe ▸ (hids q hq).1, hre ▸ (hids r hr).1⟩
  have heq : from_str pv (G.serialize disp) =
      .ok (Graph.fromLists (n0 :: ns') (G.edges.map fun e => (e.from_, e.to_))) := by
    rw [Graph.serialize, hG,
      ← List.append_nil (renderPairs natToDigits (G.edges.map fun e => (e.from_, e.to_)))]
    exact from_str_render_ok pv disp n0 ns' (G.edges.map fun e => (e.from_, e.to_)) []
      (hG ▸ hids) hedge rfl
  refine ⟨Graph.fromLists (n0 :: ns') (G.edges.map fun e => (e.from_, e.to_)), heq, ?_, ?_⟩
  · intro id
    rw [fromLists_lookup, ← hG]
  · intro e
    have hcov : ∀ p ∈ G.edges.map (fun e => (e.from_, e.to_)),
        (lookupId p.1 (n0 :: ns')).isSome = true ∧
        (lookupId p.2 (n0 :: ns')).isSome = true := by
      intro p hp
      obtain ⟨e', he', rfl⟩ := List.mem_map.mp hp
      obtain ⟨hf, ht⟩ := hwf e' he'
      rw [containsId] at hf ht
      rw [← hG]
      exact ⟨hf, ht⟩
    rw [fromLists_edges_mem (n0 :: ns') _ hcov e, pair_mem_map_edges]

/-- Witness for the amended C1: one node with a self-loop, `String` values. -/
theorem c1_roundtrip_amended_witness :
    ∃ G', from_str strPv ((Graph.mk [(1, chars ("a"))] [Edge.mk 1 1]).serialize strDisp) =
        .ok G' ∧
      (∀ id, lookupId id G'.nodes =
        lookupId id (Graph.mk [(1, chars ("a"))] [Edge.mk 1 1]).nodes) ∧
      (∀ e, e ∈ G'.edges ↔ e ∈ (Graph.mk [(1, chars ("a"))] [Edge.mk 1 1]).edges) :=
  c1_roundtrip_amended strPv strDisp (Graph.mk [(1, chars ("a"))] [Edge.mk 1 1])
    (by decide) (by decide) (by decide)
